import Mathlib

/-!
Verification development for the A-share backtest simulation engine
(backend/app/services/backtesting/engine.py, optimizer.py and the
data-fetch step of backtest_integration_service.py).

Prices, cash amounts and rates are modelled as rationals; position sizes
as integers (buy orders carry positive size, sell orders negative size,
as in the runtime order objects); dates as naturals.
-/

namespace StockBacktest

/-- Parameters of ChinaStockCommission (engine.py lines 16-28):
commission rate, stamp duty rate, minimum commission, slippage. -/
structure CommissionParams where
  commission : ℚ
  stampDuty : ℚ
  minCommission : ℚ
  slippage : ℚ
deriving DecidableEq

/-- ChinaStockCommission._getcommission (engine.py lines 30-53):
value = abs(size) * price; commission = max(value * rate, min_commission);
sells (negative size) additionally pay value * stamp_duty. -/
def getcommission (p : CommissionParams) (size price : ℚ) : ℚ :=
  let value := |size| * price
  let commission := max (value * p.commission) p.minCommission
  if size < 0 then commission + value * p.stampDuty else commission

/-- Order side: buy or sell. -/
inductive OrderSide where
  | buy
  | sell
deriving DecidableEq

/-- Execution type of an order, as distinguished by engine.py line 160
(order.exectype != bt.Order.Market). -/
inductive ExecType where
  | market
  | limit
deriving DecidableEq

/-- Sign convention of the runtime order objects: buy intents carry a
positive signed size, sell intents a negative one. -/
def signedSize : OrderSide → ℚ → ℚ
  | OrderSide.buy, s => s
  | OrderSide.sell, s => -s

/-- An order as seen by ChinaStockBroker.submit: the data feed name,
side, signed size (buys positive, sells negative), the requested price
and the execution type. -/
structure Order where
  name : String
  side : OrderSide
  size : Int
  price : ℚ
  exectype : ExecType
deriving DecidableEq

/-- Parameters of ChinaStockBroker (engine.py lines 76-80). -/
structure BrokerParams where
  priceLimit : ℚ
  enableT1 : Bool
  enablePriceLimit : Bool
deriving DecidableEq

/-- Mutable state of ChinaStockBroker: cash, per-name position size,
per-name per-date bought size (buy_records), per-name previous close,
and the queue of accepted, not yet executed orders. -/
structure BrokerState where
  cash : ℚ
  positions : String → Int
  buyRecords : String → Nat → Int
  prevClose : String → Option ℚ
  pending : List Order

/-- ChinaStockBroker._check_t1_restriction (engine.py lines 88-111).
Buys, or a disabled T+1 rule, pass unchanged; a sell is allowed only if
its absolute size does not exceed the position size minus the quantity
bought today for that name. -/
def checkT1Restriction (p : BrokerParams) (st : BrokerState) (name : String)
    (date : Nat) (size : Int) : Bool × Int :=
  if p.enableT1 = false ∨ size > 0 then (true, size)
  else
    let totalPosition := st.positions name
    let todayBuy := st.buyRecords name date
    let available := totalPosition - todayBuy
    if available < |size| then (false, available)
    else (true, size)

/-- ChinaStockBroker._check_price_limit (engine.py lines 113-143).
With the rule disabled, or with no previous close recorded, the price
passes unchanged; otherwise a price above prev_close*(1+limit) yields
(false, upper limit) and a price below prev_close*(1-limit) yields
(false, lower limit). -/
def checkPriceLimit (p : BrokerParams) (st : BrokerState) (name : String)
    (price : ℚ) : Bool × ℚ :=
  if p.enablePriceLimit = false then (true, price)
  else
    match st.prevClose name with
    | none => (true, price)
    | some prevClose =>
      let upperLimit := prevClose * (1 + p.priceLimit)
      let lowerLimit := prevClose * (1 - p.priceLimit)
      if price > upperLimit then (false, upperLimit)
      else if price < lowerLimit then (false, lowerLimit)
      else (true, price)

/-- Outcome of ChinaStockBroker.submit: the order is rejected, or it is
accepted (with its price possibly adjusted to a limit boundary). -/
inductive SubmitResult where
  | rejected
  | accepted (order : Order)
deriving DecidableEq

/-- Price-limit stage of ChinaStockBroker.submit (engine.py lines
159-166): non-market orders whose price fails the check are repriced to
the returned boundary, then the order is handed to the base broker,
modelled as appending it to the pending queue. -/
def submitPriceCheck (p : BrokerParams) (st : BrokerState) (o : Order) :
    BrokerState × SubmitResult :=
  let adjusted :=
    if o.exectype ≠ ExecType.market then
      let checked := checkPriceLimit p st o.name o.price
      if checked.1 then o else { o with price := checked.2 }
    else o
  ({ st with pending := st.pending ++ [adjusted] }, SubmitResult.accepted adjusted)

/-- ChinaStockBroker.submit (engine.py lines 145-166): buys skip the
T+1 stage; sells failing the T+1 check are rejected outright with no
state change; surviving orders go through the price-limit stage. -/
def submit (p : BrokerParams) (st : BrokerState) (date : Nat) (o : Order) :
    BrokerState × SubmitResult :=
  if o.side = OrderSide.buy then submitPriceCheck p st o
  else if (checkT1Restriction p st o.name date o.size).1 then submitPriceCheck p st o
  else (st, SubmitResult.rejected)

/-- A fill produced by executing an accepted order. -/
structure Fill where
  date : Nat
  name : String
  size : Int
  price : ℚ
  comm : ℚ
deriving DecidableEq

/-- Execution price of an order: market orders fill at the execution
price of the bar, unclipped; non-market orders fill at their (possibly
adjusted) order price. -/
def fillPrice (execPrice : ℚ) (o : Order) : ℚ :=
  if o.exectype = ExecType.market then execPrice else o.price

/-- Execution of one accepted order against a bar: the position of the
order name moves by the signed size, cash moves by the signed notional
plus commission, and, mirroring ChinaStockBroker.notify_trade (engine.py
lines 176-183), a buy records its size under the execution date in
buy_records. -/
def executeOrder (cp : CommissionParams) (date : Nat) (execPrice : ℚ)
    (st : BrokerState) (o : Order) : BrokerState × Fill :=
  let price := fillPrice execPrice o
  let comm := getcommission cp (o.size : ℚ) price
  let st' : BrokerState :=
    { st with
      cash := st.cash - price * (o.size : ℚ) - comm
      positions := Function.update st.positions o.name (st.positions o.name + o.size)
      buyRecords :=
        if o.size > 0 then
          fun n d =>
            if n = o.name ∧ d = date then st.buyRecords n d + o.size
            else st.buyRecords n d
        else st.buyRecords }
  (st', { date := date, name := o.name, size := o.size, price := price, comm := comm })

/-- ChinaStockBroker.next (engine.py lines 168-174): at the end of each
bar the previous close of every data feed is updated to the close of the
current bar. -/
def brokerNextClose (st : BrokerState) (name : String) (close : ℚ) : BrokerState :=
  { st with prevClose := Function.update st.prevClose name (some close) }

/-- C4: for every fill with numeric price and size at least zero, the
commission charged equals max(price*size*commission_rate,
min_commission), plus price*size*stamp_duty_rate added exactly when the
fill is a sell; getcommission is a pure Lean function, so it has no side
effects. -/
theorem commission_formula (p : CommissionParams) (side : OrderSide)
    (price size : ℚ) (hp : 0 ≤ price) (hs : 0 ≤ size) :
    getcommission p (signedSize side size) price =
      max (price * size * p.commission) p.minCommission +
        (if side = OrderSide.sell then price * size * p.stampDuty else 0) := by
  cases side with
  | buy =>
    simp only [signedSize, getcommission, reduceCtorEq, if_false, add_zero]
    rw [abs_of_nonneg hs, if_neg (not_lt.mpr hs), mul_comm size price]
  | sell =>
    simp only [signedSize, getcommission, if_true]
    rw [abs_neg, abs_of_nonneg hs, mul_comm size price]
    rcases lt_or_eq_of_le hs with h | h
    · rw [if_pos (neg_neg_iff_pos.mpr h)]
    · rw [← h]
      norm_num

/-- Witness for commission_formula at a concrete sell fill. -/
theorem commission_formula_witness :
    (0 : ℚ) ≤ 10 ∧ (0 : ℚ) ≤ 200 ∧
      getcommission ⟨3/10000, 1/1000, 5, 1/1000⟩ (signedSize OrderSide.sell 200) 10 =
        max ((10 : ℚ) * 200 * (3/10000)) 5 +
          (if OrderSide.sell = OrderSide.sell then (10 : ℚ) * 200 * (1/1000) else 0) :=
  ⟨by norm_num, by norm_num,
    commission_formula ⟨3/10000, 1/1000, 5, 1/1000⟩ OrderSide.sell 10 200
      (by norm_num) (by norm_num)⟩

/-- C1: with T+1 enforcement enabled, a sell order whose absolute size
exceeds the sellable size (position size minus the quantity bought today
for that name) is rejected entirely by submit: no fill is produced, the
pending queue is untouched, and the whole broker state, in particular
the position size, is unchanged. -/
theorem t1_oversell_rejected (p : BrokerParams) (st : BrokerState)
    (date : Nat) (o : Order) (henable : p.enableT1 = true)
    (hside : o.side = OrderSide.sell) (hneg : o.size < 0)
    (hexceed : st.positions o.name - st.buyRecords o.name date < |o.size|) :
    submit p st date o = (st, SubmitResult.rejected) := by
  have hcheck : checkT1Restriction p st o.name date o.size =
      (false, st.positions o.name - st.buyRecords o.name date) := by
    unfold checkT1Restriction
    rw [if_neg (by simp [henable, not_lt.mpr (le_of_lt hneg)]), if_pos hexceed]
  unfold submit
  rw [if_neg (by rw [hside]; simp), hcheck]
  simp

/-- Witness for t1_oversell_rejected: position 100, bought 50 today,
requested sell of 80 is rejected with the state unchanged. -/
theorem t1_oversell_rejected_witness :
    submit ⟨1/10, true, true⟩
      ⟨100000, fun _ => 100, fun _ _ => 50, fun _ => none, []⟩ 5
      ⟨"data", OrderSide.sell, -80, 10, ExecType.market⟩ =
      (⟨100000, fun _ => 100, fun _ _ => 50, fun _ => none, []⟩,
        SubmitResult.rejected) :=
  t1_oversell_rejected ⟨1/10, true, true⟩
    ⟨100000, fun _ => 100, fun _ _ => 50, fun _ => none, []⟩ 5
    ⟨"data", OrderSide.sell, -80, 10, ExecType.market⟩
    rfl rfl (by decide) (by decide)

/-- Submission of a buy order skips the T+1 stage (engine.py lines
150-152) and goes directly to the price-limit stage. -/
theorem submit_of_buy (p : BrokerParams) (st : BrokerState) (date : Nat)
    (o : Order) (h : o.side = OrderSide.buy) :
    submit p st date o = submitPriceCheck p st o := by
  unfold submit
  rw [if_pos h]

/-- Any order that passes the T+1 gate of submit, a buy (which skips
the T+1 stage, engine.py lines 150-152) or a sell allowed by the T+1
check, reaches the price-limit stage. -/
theorem submit_of_t1_pass (p : BrokerParams) (st : BrokerState) (date : Nat)
    (o : Order)
    (h : o.side = OrderSide.buy ∨
      (checkT1Restriction p st o.name date o.size).1 = true) :
    submit p st date o = submitPriceCheck p st o := by
  unfold submit
  by_cases hb : o.side = OrderSide.buy
  · rw [if_pos hb]
  · rcases h with h | h
    · exact absurd h hb
    · rw [if_neg hb, if_pos h]

/-- With enforcement on and a known previous close, a price above the
upper limit is reported as (false, upper limit). -/
theorem checkPriceLimit_above (p : BrokerParams) (st : BrokerState)
    (name : String) (price pc : ℚ) (hen : p.enablePriceLimit = true)
    (hpc : st.prevClose name = some pc)
    (hgt : pc * (1 + p.priceLimit) < price) :
    checkPriceLimit p st name price = (false, pc * (1 + p.priceLimit)) := by
  simp only [checkPriceLimit, hen, Bool.true_eq_false, if_false, hpc]
  rw [if_pos hgt]

/-- With enforcement on and a known previous close, a price below the
lower limit is reported as (false, lower limit). -/
theorem checkPriceLimit_below (p : BrokerParams) (st : BrokerState)
    (name : String) (price pc : ℚ) (hen : p.enablePriceLimit = true)
    (hpc : st.prevClose name = some pc)
    (hlt : price < pc * (1 - p.priceLimit))
    (hle : price ≤ pc * (1 + p.priceLimit)) :
    checkPriceLimit p st name price = (false, pc * (1 - p.priceLimit)) := by
  simp only [checkPriceLimit, hen, Bool.true_eq_false, if_false, hpc]
  rw [if_neg (not_lt.mpr hle), if_pos hlt]

/-- With enforcement on and a known previous close, a price inside the
band passes unchanged. -/
theorem checkPriceLimit_inside (p : BrokerParams) (st : BrokerState)
    (name : String) (price pc : ℚ) (hen : p.enablePriceLimit = true)
    (hpc : st.prevClose name = some pc)
    (hlo : pc * (1 - p.priceLimit) ≤ price)
    (hhi : price ≤ pc * (1 + p.priceLimit)) :
    checkPriceLimit p st name price = (true, price) := by
  simp only [checkPriceLimit, hen, Bool.true_eq_false, if_false, hpc]
  rw [if_neg (not_lt.mpr hhi), if_neg (not_lt.mpr hlo)]

/-- C2: for every limit (non-market) order that passes the T+1 gate of
submit (a buy, or a sell the T+1 check allows), with price-limit
enforcement enabled and a known previous close, submit never rejects on
price: above the upper limit the order is repriced to exactly
prev_close*(1+limit), below the lower limit to exactly
prev_close*(1-limit), and inside the band it proceeds at the requested
price; with no previous close known (first bar) or with enforcement
disabled, the order is accepted at its requested price unmodified. -/
theorem price_limit_reprice :
    (∀ (p : BrokerParams) (st : BrokerState) (date : Nat) (o : Order) (pc : ℚ),
      p.enablePriceLimit = true → st.prevClose o.name = some pc →
      o.exectype ≠ ExecType.market →
      (o.side = OrderSide.buy ∨
        (checkT1Restriction p st o.name date o.size).1 = true) →
      ((pc * (1 + p.priceLimit) < o.price →
          submit p st date o =
            ({ st with pending := st.pending ++ [{ o with price := pc * (1 + p.priceLimit) }] },
              SubmitResult.accepted { o with price := pc * (1 + p.priceLimit) })) ∧
       (o.price < pc * (1 - p.priceLimit) → o.price ≤ pc * (1 + p.priceLimit) →
          submit p st date o =
            ({ st with pending := st.pending ++ [{ o with price := pc * (1 - p.priceLimit) }] },
              SubmitResult.accepted { o with price := pc * (1 - p.priceLimit) })) ∧
       (pc * (1 - p.priceLimit) ≤ o.price → o.price ≤ pc * (1 + p.priceLimit) →
          submit p st date o =
            ({ st with pending := st.pending ++ [o] }, SubmitResult.accepted o)))) ∧
    (∀ (p : BrokerParams) (st : BrokerState) (date : Nat) (o : Order),
      st.prevClose o.name = none →
      (o.side = OrderSide.buy ∨
        (checkT1Restriction p st o.name date o.size).1 = true) →
      submit p st date o =
        ({ st with pending := st.pending ++ [o] }, SubmitResult.accepted o)) ∧
    (∀ (p : BrokerParams) (st : BrokerState) (date : Nat) (o : Order),
      p.enablePriceLimit = false →
      (o.side = OrderSide.buy ∨
        (checkT1Restriction p st o.name date o.size).1 = true) →
      submit p st date o =
        ({ st with pending := st.pending ++ [o] }, SubmitResult.accepted o)) := by
  refine ⟨fun p st date o pc hen hpc hlim hpass => ⟨fun hgt => ?_, fun hlt hle => ?_, fun hlo hhi => ?_⟩,
    fun p st date o hpc hpass => ?_, fun p st date o hen hpass => ?_⟩
  · rw [submit_of_t1_pass p st date o hpass]
    unfold submitPriceCheck
    rw [if_pos hlim, checkPriceLimit_above p st o.name o.price pc hen hpc hgt]
    simp
  · rw [submit_of_t1_pass p st date o hpass]
    unfold submitPriceCheck
    rw [if_pos hlim, checkPriceLimit_below p st o.name o.price pc hen hpc hlt hle]
    simp
  · rw [submit_of_t1_pass p st date o hpass]
    unfold submitPriceCheck
    rw [if_pos hlim, checkPriceLimit_inside p st o.name o.price pc hen hpc hlo hhi]
    simp
  · rw [submit_of_t1_pass p st date o hpass]
    unfold submitPriceCheck
    have hc : checkPriceLimit p st o.name o.price = (true, o.price) := by
      unfold checkPriceLimit
      split
      · rfl
      · rw [hpc]
    rw [hc]
    split
    · simp
    · simp
  · rw [submit_of_t1_pass p st date o hpass]
    unfold submitPriceCheck
    have hc : checkPriceLimit p st o.name o.price = (true, o.price) := by
      unfold checkPriceLimit
      rw [if_pos hen]
    rw [hc]
    split
    · simp
    · simp

/-- Witness for price_limit_reprice: previous close 100, limit 10
percent; a limit sell of 50 shares at 120 out of a position of 100 with
nothing bought today (so the T+1 check allows it) is repriced to 110; a
limit buy at 80 is repriced to 90, one at 105 kept; with no previous
close or enforcement off, a limit buy at 120 is kept at 120. -/
theorem price_limit_reprice_witness :
    (submit ⟨1/10, true, true⟩
        ⟨100000, fun _ => 100, fun _ _ => 0, fun n => if n = "data" then some 100 else none, []⟩ 6
        ⟨"data", OrderSide.sell, -50, 120, ExecType.limit⟩ =
      (⟨100000, fun _ => 100, fun _ _ => 0, fun n => if n = "data" then some 100 else none,
          [] ++ [⟨"data", OrderSide.sell, -50, 100 * (1 + 1/10), ExecType.limit⟩]⟩,
        SubmitResult.accepted ⟨"data", OrderSide.sell, -50, 100 * (1 + 1/10), ExecType.limit⟩)) ∧
    (submit ⟨1/10, true, true⟩
        ⟨100000, fun _ => 0, fun _ _ => 0, fun n => if n = "data" then some 100 else none, []⟩ 6
        ⟨"data", OrderSide.buy, 100, 80, ExecType.limit⟩ =
      (⟨100000, fun _ => 0, fun _ _ => 0, fun n => if n = "data" then some 100 else none,
          [] ++ [⟨"data", OrderSide.buy, 100, 100 * (1 - 1/10), ExecType.limit⟩]⟩,
        SubmitResult.accepted ⟨"data", OrderSide.buy, 100, 100 * (1 - 1/10), ExecType.limit⟩)) ∧
    (submit ⟨1/10, true, true⟩
        ⟨100000, fun _ => 0, fun _ _ => 0, fun n => if n = "data" then some 100 else none, []⟩ 6
        ⟨"data", OrderSide.buy, 100, 105, ExecType.limit⟩ =
      (⟨100000, fun _ => 0, fun _ _ => 0, fun n => if n = "data" then some 100 else none,
          [] ++ [⟨"data", OrderSide.buy, 100, 105, ExecType.limit⟩]⟩,
        SubmitResult.accepted ⟨"data", OrderSide.buy, 100, 105, ExecType.limit⟩)) ∧
    (submit ⟨1/10, true, true⟩
        ⟨100000, fun _ => 0, fun _ _ => 0, fun _ => none, []⟩ 6
        ⟨"data", OrderSide.buy, 100, 120, ExecType.limit⟩ =
      (⟨100000, fun _ => 0, fun _ _ => 0, fun _ => none,
          [] ++ [⟨"data", OrderSide.buy, 100, 120, ExecType.limit⟩]⟩,
        SubmitResult.accepted ⟨"data", OrderSide.buy, 100, 120, ExecType.limit⟩)) ∧
    (submit ⟨1/10, true, false⟩
        ⟨100000, fun _ => 0, fun _ _ => 0, fun n => if n = "data" then some 100 else none, []⟩ 6
        ⟨"data", OrderSide.buy, 100, 120, ExecType.limit⟩ =
      (⟨100000, fun _ => 0, fun _ _ => 0, fun n => if n = "data" then some 100 else none,
          [] ++ [⟨"data", OrderSide.buy, 100, 120, ExecType.limit⟩]⟩,
        SubmitResult.accepted ⟨"data", OrderSide.buy, 100, 120, ExecType.limit⟩)) :=
  ⟨(price_limit_reprice.1 _ _ 6 _ 100 rfl rfl (by decide) (Or.inr (by decide))).1
     (by norm_num),
   (price_limit_reprice.1 _ _ 6 _ 100 rfl rfl (by decide) (Or.inl rfl)).2.1
     (by norm_num) (by norm_num),
   (price_limit_reprice.1 _ _ 6 _ 100 rfl rfl (by decide) (Or.inl rfl)).2.2
     (by norm_num) (by norm_num),
   price_limit_reprice.2.1 _ _ 6 _ rfl (Or.inl rfl),
   price_limit_reprice.2.2 _ _ 6 _ rfl (Or.inl rfl)⟩

/-- Default commission parameters of the engine (engine.py lines 21-28
and setup defaults). -/
def cpDefault : CommissionParams := ⟨3/10000, 1/1000, 5, 1/1000⟩

/-- Default broker parameters: 10 percent limit, T+1 and price limit
both enabled (engine.py lines 76-80). -/
def bpDefault : BrokerParams := ⟨1/10, true, true⟩

/-- A broker state one bar into a run: previous close 100 recorded for
the feed named data. -/
def stWithPrevClose : BrokerState :=
  ⟨100000, fun _ => 0, fun _ _ => 0,
    fun n => if n = "data" then some 100 else none, []⟩

/-- A market buy order submitted while the bar trades 15 percent above
the previous close. -/
def marketBuyOrder : Order := ⟨"data", OrderSide.buy, 100, 115, ExecType.market⟩

/-- C3 counterexample: with price-limit enforcement enabled and previous
close 100, a market order is accepted unmodified by submit (engine.py
line 160 skips the check for market orders) and fills at the execution
price 115 of the bar, which lies outside the band up to 100 * 1.1; so
the band invariant does not hold for fills of market orders. -/
theorem fill_band_counterexample :
    bpDefault.enablePriceLimit = true ∧
    stWithPrevClose.prevClose "data" = some 100 ∧
    (submit bpDefault stWithPrevClose 6 marketBuyOrder).2 =
      SubmitResult.accepted marketBuyOrder ∧
    ((executeOrder cpDefault 6 115 stWithPrevClose marketBuyOrder).2).price = 115 ∧
    ¬ ((executeOrder cpDefault 6 115 stWithPrevClose marketBuyOrder).2).price ≤
        100 * (11/10) := by
  refine ⟨rfl, rfl, rfl, rfl, ?_⟩
  show ¬ (115 : ℚ) ≤ 100 * (11/10)
  norm_num

/-- Helper for the amended C3: an accepted submit outcome always comes
from the price-limit stage. -/
theorem submit_accepted_from_priceCheck (p : BrokerParams) (st : BrokerState)
    (date : Nat) (o o' : Order) (st' : BrokerState)
    (hsub : submit p st date o = (st', SubmitResult.accepted o')) :
    submitPriceCheck p st o = (st', SubmitResult.accepted o') := by
  unfold submit at hsub
  split at hsub
  · exact hsub
  · split at hsub
    · exact hsub
    · simp at hsub

/-- Helper for the amended C3: the order accepted by the price-limit
stage of a non-market submission is the original order with its price
replaced by the outcome of the check, and its execution type is kept. -/
theorem submitPriceCheck_accepted_order (p : BrokerParams) (st : BrokerState)
    (o o' : Order) (st' : BrokerState)
    (hlim : o.exectype ≠ ExecType.market)
    (h : submitPriceCheck p st o = (st', SubmitResult.accepted o')) :
    o' = (if (checkPriceLimit p st o.name o.price).1 then o
          else { o with price := (checkPriceLimit p st o.name o.price).2 }) := by
  unfold submitPriceCheck at h
  rw [if_pos hlim] at h
  have := congrArg Prod.snd h
  simp only at this
  split at this <;> split <;>
    first
      | exact (SubmitResult.accepted.inj this).symm
      | simp_all

/-- Helper for the amended C3: when the price check reports a clip, the
accepted order is the original order repriced to the boundary. -/
theorem submitPriceCheck_accepted_clip (p : BrokerParams) (st : BrokerState)
    (o o' : Order) (st' : BrokerState) (q : ℚ)
    (hlim : o.exectype ≠ ExecType.market)
    (hc : checkPriceLimit p st o.name o.price = (false, q))
    (h : submitPriceCheck p st o = (st', SubmitResult.accepted o')) :
    o' = { o with price := q } := by
  have hord := submitPriceCheck_accepted_order p st o o' st' hlim h
  rw [hc] at hord
  simpa using hord

/-- Helper for the amended C3: when the price check passes, the accepted
order is the original order unmodified. -/
theorem submitPriceCheck_accepted_keep (p : BrokerParams) (st : BrokerState)
    (o o' : Order) (st' : BrokerState) (q : ℚ)
    (hlim : o.exectype ≠ ExecType.market)
    (hc : checkPriceLimit p st o.name o.price = (true, q))
    (h : submitPriceCheck p st o = (st', SubmitResult.accepted o')) :
    o' = o := by
  have hord := submitPriceCheck_accepted_order p st o o' st' hlim h
  rw [hc] at hord
  simpa using hord

/-- C3 amended: with price-limit enforcement enabled at the default 10
percent band and a known nonnegative previous close, every non-market
order accepted by submit carries a price within the band from
prev_close * 0.9 to prev_close * 1.1, and its fill executes exactly at
that price; market orders bypass the check and may fill outside the
band. -/
theorem limit_fill_within_band (p : BrokerParams) (st : BrokerState)
    (date : Nat) (o o' : Order) (st' : BrokerState) (pc : ℚ)
    (hen : p.enablePriceLimit = true) (hL : p.priceLimit = 1/10)
    (hpc : st.prevClose o.name = some pc) (hpc0 : 0 ≤ pc)
    (hlim : o.exectype ≠ ExecType.market)
    (hsub : submit p st date o = (st', SubmitResult.accepted o')) :
    pc * (9/10) ≤ o'.price ∧ o'.price ≤ pc * (11/10) ∧
      ∀ (cp : CommissionParams) (d : Nat) (ep : ℚ) (s : BrokerState),
        ((executeOrder cp d ep s o').2).price = o'.price := by
  have h0 := submit_accepted_from_priceCheck p st date o o' st' hsub
  have hfill : o'.exectype = o.exectype →
      ∀ (cp : CommissionParams) (d : Nat) (ep : ℚ) (s : BrokerState),
        ((executeOrder cp d ep s o').2).price = o'.price := by
    intro hexec cp d ep s
    show fillPrice ep o' = o'.price
    unfold fillPrice
    rw [if_neg (hexec ▸ hlim)]
  rcases lt_trichotomy (pc * (1 + p.priceLimit)) o.price with hgt | heq | hle
  · have hord := submitPriceCheck_accepted_clip p st o o' st' _ hlim
      (checkPriceLimit_above p st o.name o.price pc hen hpc hgt) h0
    have hprice : o'.price = pc * (1 + p.priceLimit) := by rw [hord]
    have hexec : o'.exectype = o.exectype := by rw [hord]
    rw [hL] at hprice
    exact ⟨by rw [hprice]; nlinarith, by rw [hprice]; nlinarith, hfill hexec⟩
  · have hlo : pc * (1 - p.priceLimit) ≤ o.price := by
      rw [← heq, hL]
      nlinarith
    have hord := submitPriceCheck_accepted_keep p st o o' st' _ hlim
      (checkPriceLimit_inside p st o.name o.price pc hen hpc hlo (le_of_eq heq.symm)) h0
    have hprice : o'.price = pc * (1 + p.priceLimit) := by rw [hord, ← heq]
    have hexec : o'.exectype = o.exectype := by rw [hord]
    rw [hL] at hprice
    exact ⟨by rw [hprice]; nlinarith, by rw [hprice]; nlinarith, hfill hexec⟩
  · rcases lt_or_le o.price (pc * (1 - p.priceLimit)) with hlt | hlo
    · have hord := submitPriceCheck_accepted_clip p st o o' st' _ hlim
        (checkPriceLimit_below p st o.name o.price pc hen hpc hlt (le_of_lt hle)) h0
      have hprice : o'.price = pc * (1 - p.priceLimit) := by rw [hord]
      have hexec : o'.exectype = o.exectype := by rw [hord]
      rw [hL] at hprice
      exact ⟨by rw [hprice]; nlinarith, by rw [hprice]; nlinarith, hfill hexec⟩
    · have hord := submitPriceCheck_accepted_keep p st o o' st' _ hlim
        (checkPriceLimit_inside p st o.name o.price pc hen hpc hlo (le_of_lt hle)) h0
      have hexec : o'.exectype = o.exectype := by rw [hord]
      rw [hL] at hlo hle
      exact ⟨by rw [hord]; nlinarith, by rw [hord]; nlinarith, hfill hexec⟩

/-- Witness for limit_fill_within_band: a limit buy at 120 against
previous close 100 is accepted repriced to 110, inside the band. -/
theorem limit_fill_within_band_witness :
    (100 : ℚ) * (9/10) ≤
        (Order.mk "data" OrderSide.buy 100 (100 * (1 + 1/10)) ExecType.limit).price ∧
      (Order.mk "data" OrderSide.buy 100 (100 * (1 + 1/10)) ExecType.limit).price ≤
        (100 : ℚ) * (11/10) ∧
      ∀ (cp : CommissionParams) (d : Nat) (ep : ℚ) (s : BrokerState),
        ((executeOrder cp d ep s
            (Order.mk "data" OrderSide.buy 100 (100 * (1 + 1/10)) ExecType.limit)).2).price =
          (Order.mk "data" OrderSide.buy 100 (100 * (1 + 1/10)) ExecType.limit).price :=
  limit_fill_within_band bpDefault stWithPrevClose 6
    ⟨"data", OrderSide.buy, 100, 120, ExecType.limit⟩
    ⟨"data", OrderSide.buy, 100, 100 * (1 + 1/10), ExecType.limit⟩
    { stWithPrevClose with
        pending := stWithPrevClose.pending ++
          [⟨"data", OrderSide.buy, 100, 100 * (1 + 1/10), ExecType.limit⟩] }
    100 rfl rfl rfl (by norm_num) (by decide)
    (by
      show submitPriceCheck bpDefault stWithPrevClose _ = _
      unfold submitPriceCheck checkPriceLimit bpDefault stWithPrevClose
      norm_num
      decide)

/-- A daily price bar: date, open and close (the further OHLCV fields do
not enter the verified behavior). -/
structure Bar where
  date : Nat
  op : ℚ
  close : ℚ
deriving DecidableEq

/-- Insertion of a bar into a list sorted by ascending date, used to
model the final sort_values step of the data-fetch layer. -/
def insertByDate (b : Bar) : List Bar → List Bar
  | [] => [b]
  | x :: xs => if b.date ≤ x.date then b :: x :: xs else x :: insertByDate b xs

/-- Sorting of the fetched rows by date
(backtest_integration_service.py line 246). -/
def sortByDate (l : List Bar) : List Bar := l.foldr insertByDate []

/-- BacktestIntegrationService._get_historical_data (lines 224-248 of
backtest_integration_service.py): a missing (None) or empty frame
raises before any engine is constructed; otherwise the rows are sorted
by date and returned. The numeric-coercion and NaN-dropping steps act
on fields outside this model. -/
def getHistoricalData (fetched : Option (List Bar)) : Except String (List Bar) :=
  match fetched with
  | none => Except.error "unable to fetch historical data"
  | some df =>
    if df.isEmpty then Except.error "unable to fetch historical data"
    else Except.ok (sortByDate df)

/-- Phase reached by a strategy backtest request: either it failed
before the engine run started, or the engine run was entered. -/
inductive BacktestPhase (α : Type) where
  | failedBeforeRun (msg : String)
  | ran (result : α)
deriving DecidableEq

/-- BacktestIntegrationService.run_strategy_backtest, steps 3 to 7
(backtest_integration_service.py lines 65-101): the historical data is
fetched first, and only on success are the engine setup and run
executed; a data error surfaces as a failure before the Running state. -/
def runStrategyBacktestFlow {α : Type} (fetched : Option (List Bar))
    (engineRun : List Bar → α) : BacktestPhase α :=
  match getHistoricalData fetched with
  | Except.error e => BacktestPhase.failedBeforeRun e
  | Except.ok df => BacktestPhase.ran (engineRun df)

/-- C5: an empty (or missing) input bar sequence makes the backtest
request fail fast with a configuration error before the engine run is
entered, while any non-empty bar sequence reaches the engine run; the
emptiness check lives in the data-fetch step, upstream of
BacktestEngine.run. -/
theorem empty_data_fails_fast {α : Type} (engineRun : List Bar → α) :
    runStrategyBacktestFlow none engineRun =
      BacktestPhase.failedBeforeRun "unable to fetch historical data" ∧
    runStrategyBacktestFlow (some []) engineRun =
      BacktestPhase.failedBeforeRun "unable to fetch historical data" ∧
    ∀ (b : Bar) (l : List Bar),
      runStrategyBacktestFlow (some (b :: l)) engineRun =
        BacktestPhase.ran (engineRun (sortByDate (b :: l))) :=
  ⟨rfl, rfl, fun _ _ => rfl⟩

/-- One point of the equity curve recorded by the strategy (engine.py
lines 274-281): date, total portfolio value and cash. -/
structure EquityPoint where
  date : Nat
  value : ℚ
  cash : ℚ
deriving DecidableEq

/-- Total account value at a close price: cash plus the marked position
of the single data feed, as broker.getvalue() reports inside
SimpleMovingAverageStrategy.next. -/
def accountValue (b : BrokerState) (close : ℚ) : ℚ :=
  b.cash + (b.positions "data" : ℚ) * close

/-- State of a single-strategy run: the broker, the flag self.order of
the strategy (an order is outstanding), the recorded equity curve and
the fills executed so far. -/
structure RunState where
  broker : BrokerState
  orderPending : Bool
  equity : List EquityPoint
  fills : List Fill

/-- Python int() truncation toward zero, used for the board-lot size
computation int((cash*0.9)/close/100)*100 of engine.py line 293. -/
def pyInt (q : ℚ) : Int := if q < 0 then -((-q).floor) else q.floor

/-- Execution of all pending orders against the open of a new bar,
modelling the base-broker order processing that runs before the per-bar
strategy hook; returns the updated broker (with an emptied queue) and
the fills produced, in submission order. -/
def executePendings (cp : CommissionParams) (date : Nat) (execPrice : ℚ)
    (st : BrokerState) : BrokerState × List Fill :=
  let folded := st.pending.foldl
    (fun (acc : BrokerState × List Fill) (o : Order) =>
      let ex := executeOrder cp date execPrice acc.1 o
      (ex.1, acc.2 ++ [ex.2]))
    (st, [])
  ({ folded.1 with pending := [] }, folded.2)

/-- SimpleMovingAverageStrategy.next (engine.py lines 272-301) for one
bar, with the crossover indicator value of the bar supplied as input:
first the equity point of the day is appended (date, total value at the
close of the bar, cash); then, unless an order is outstanding, a
positive crossover with a flat position buys a board-lot-rounded 90
percent of cash (market order), and a negative crossover with an open
position sells the whole position (market order, negative signed size). -/
def strategyNext (bp : BrokerParams) (sig : Int) (bar : Bar) (rs : RunState) :
    RunState :=
  let rs' : RunState :=
    { rs with
      equity := rs.equity ++
        [⟨bar.date, accountValue rs.broker bar.close, rs.broker.cash⟩] }
  if rs'.orderPending then rs'
  else if rs'.broker.positions "data" = 0 then
    if sig > 0 then
      if 100 ≤ pyInt ((rs'.broker.cash * (9/10)) / bar.close / 100) * 100 then
        { rs' with
          broker := (submit bp rs'.broker bar.date
            ⟨"data", OrderSide.buy,
              pyInt ((rs'.broker.cash * (9/10)) / bar.close / 100) * 100,
              bar.close, ExecType.market⟩).1,
          orderPending := true }
      else rs'
    else rs'
  else
    if sig < 0 then
      { rs' with
        broker := (submit bp rs'.broker bar.date
          ⟨"data", OrderSide.sell, -(rs'.broker.positions "data"),
            bar.close, ExecType.market⟩).1,
        orderPending := true }
    else rs'

/-- Processing of one bar of the run, in the driving order of the
runtime: pending orders from the previous bar execute at the open of
this bar and clear the outstanding-order flag, then the strategy hook
runs, then the broker records the close of the bar as the new previous
close (engine.py lines 168-174). -/
def barStep (cp : CommissionParams) (bp : BrokerParams) (sig : Int)
    (bar : Bar) (rs : RunState) : RunState :=
  let ex := executePendings cp bar.date bar.op rs.broker
  let rs1 : RunState :=
    { broker := ex.1, orderPending := false, equity := rs.equity,
      fills := rs.fills ++ ex.2 }
  let rs2 := strategyNext bp sig bar rs1
  { rs2 with broker := brokerNextClose rs2.broker "data" bar.close }

/-- The bar loop of a run: bars are consumed in order, with the
crossover signal of bar number i supplied by sig i. -/
def runBarsFrom (cp : CommissionParams) (bp : BrokerParams)
    (sig : Nat → Int) : Nat → List Bar → RunState → RunState
  | _, [], rs => rs
  | i, bar :: rest, rs =>
    runBarsFrom cp bp sig (i + 1) rest (barStep cp bp (sig i) bar rs)

/-- A full single-strategy run over a bar sequence. -/
def runBacktest (cp : CommissionParams) (bp : BrokerParams)
    (sig : Nat → Int) (bars : List Bar) (init : RunState) : RunState :=
  runBarsFrom cp bp sig 0 bars init

/-- The equity curve a run is expected to record: one point per bar,
carrying the date of the bar and the account value and cash of the
broker after the complete processing of that bar (its fills, the
strategy decision and the close bookkeeping), valued at the close of
the bar. -/
def expectedEquity (cp : CommissionParams) (bp : BrokerParams)
    (sig : Nat → Int) : Nat → List Bar → RunState → List EquityPoint
  | _, [], _ => []
  | i, bar :: rest, rs =>
    let rs' := barStep cp bp (sig i) bar rs
    ⟨bar.date, accountValue rs'.broker bar.close, rs'.broker.cash⟩ ::
      expectedEquity cp bp sig (i + 1) rest rs'

/-- Submission never changes cash or positions: a rejection leaves the
state untouched, an acceptance only queues the order. -/
theorem submit_preserves_cash_positions (p : BrokerParams) (st : BrokerState)
    (date : Nat) (o : Order) :
    ((submit p st date o).1).cash = st.cash ∧
      ((submit p st date o).1).positions = st.positions := by
  unfold submit
  split
  · exact ⟨rfl, rfl⟩
  · split
    · exact ⟨rfl, rfl⟩
    · exact ⟨rfl, rfl⟩

/-- The strategy hook appends exactly one equity point, whose value and
cash are computed from the broker state it was handed, and it never
changes the cash or the positions of the broker. -/
theorem strategyNext_spec (bp : BrokerParams) (sig : Int) (bar : Bar)
    (rs : RunState) :
    (strategyNext bp sig bar rs).equity =
      rs.equity ++ [⟨bar.date, accountValue rs.broker bar.close, rs.broker.cash⟩] ∧
    (strategyNext bp sig bar rs).broker.cash = rs.broker.cash ∧
    (strategyNext bp sig bar rs).broker.positions = rs.broker.positions := by
  unfold strategyNext
  dsimp only
  split
  · exact ⟨rfl, rfl, rfl⟩
  · split
    · split
      · split
        · exact ⟨rfl, (submit_preserves_cash_positions bp _ bar.date _).1,
            (submit_preserves_cash_positions bp _ bar.date _).2⟩
        · exact ⟨rfl, rfl, rfl⟩
      · exact ⟨rfl, rfl, rfl⟩
    · split
      · exact ⟨rfl, (submit_preserves_cash_positions bp _ bar.date _).1,
          (submit_preserves_cash_positions bp _ bar.date _).2⟩
      · exact ⟨rfl, rfl, rfl⟩

/-- One bar appends exactly one equity point, and that point records the
account value and cash of the broker as they stand after the complete
processing of the bar, valued at the close of the bar: the strategy
decision after the append only queues orders (it moves no cash and no
position), and the close bookkeeping only updates the previous close. -/
theorem barStep_spec (cp : CommissionParams) (bp : BrokerParams) (sig : Int)
    (bar : Bar) (rs : RunState) :
    (barStep cp bp sig bar rs).equity =
      rs.equity ++ [⟨bar.date,
        accountValue (barStep cp bp sig bar rs).broker bar.close,
        (barStep cp bp sig bar rs).broker.cash⟩] := by
  obtain ⟨h1, h2, h3⟩ := strategyNext_spec bp sig bar
    { broker := (executePendings cp bar.date bar.op rs.broker).1,
      orderPending := false, equity := rs.equity,
      fills := rs.fills ++ (executePendings cp bar.date bar.op rs.broker).2 }
  show (strategyNext bp sig bar _).equity = rs.equity ++
    [⟨bar.date, accountValue (brokerNextClose (strategyNext bp sig bar _).broker "data" bar.close) bar.close,
      (brokerNextClose (strategyNext bp sig bar _).broker "data" bar.close).cash⟩]
  rw [h1]
  show _ = rs.equity ++ [⟨bar.date,
    accountValue (strategyNext bp sig bar _).broker bar.close,
    (strategyNext bp sig bar _).broker.cash⟩]
  unfold accountValue
  rw [h2, h3]

/-- The bar loop extends the equity curve by exactly the expected
per-bar points. -/
theorem runBarsFrom_equity (cp : CommissionParams) (bp : BrokerParams)
    (sig : Nat → Int) :
    ∀ (bars : List Bar) (i : Nat) (rs : RunState),
      (runBarsFrom cp bp sig i bars rs).equity =
        rs.equity ++ expectedEquity cp bp sig i bars rs := by
  intro bars
  induction bars with
  | nil => intro i rs; simp [runBarsFrom, expectedEquity]
  | cons bar rest ih =>
    intro i rs
    show (runBarsFrom cp bp sig (i + 1) rest (barStep cp bp (sig i) bar rs)).equity = _
    rw [ih (i + 1) (barStep cp bp (sig i) bar rs), barStep_spec]
    show _ = rs.equity ++ (_ :: expectedEquity cp bp sig (i + 1) rest (barStep cp bp (sig i) bar rs))
    simp

/-- The expected equity curve carries exactly the dates of the bars, in
bar order. -/
theorem expectedEquity_dates (cp : CommissionParams) (bp : BrokerParams)
    (sig : Nat → Int) :
    ∀ (bars : List Bar) (i : Nat) (rs : RunState),
      (expectedEquity cp bp sig i bars rs).map (fun pt => pt.date) =
        bars.map (fun b => b.date) := by
  intro bars
  induction bars with
  | nil => intro i rs; rfl
  | cons bar rest ih =>
    intro i rs
    show Bar.date bar :: (expectedEquity cp bp sig (i + 1) rest _).map (fun pt => pt.date) = _
    rw [ih (i + 1)]
    rfl

/-- C6: starting from an empty equity curve, a run over any bar
sequence records exactly one equity point per bar; the point of each
bar carries the date of the bar and the account value and cash of the
broker after the strategy decision and the broker order processing of
that bar have completed (expectedEquity), and for chronologically
ordered bars the recorded points are in chronological order. -/
theorem equity_curve_once_per_bar (cp : CommissionParams) (bp : BrokerParams)
    (sig : Nat → Int) (bars : List Bar) (init : RunState)
    (hinit : init.equity = []) :
    (runBacktest cp bp sig bars init).equity =
      expectedEquity cp bp sig 0 bars init ∧
    (runBacktest cp bp sig bars init).equity.map (fun pt => pt.date) =
      bars.map (fun b => b.date) ∧
    (List.Chain' (· < ·) (bars.map (fun b => b.date)) →
      List.Chain' (· < ·)
        ((runBacktest cp bp sig bars init).equity.map (fun pt => pt.date))) := by
  have h1 : (runBacktest cp bp sig bars init).equity =
      expectedEquity cp bp sig 0 bars init := by
    rw [runBacktest, runBarsFrom_equity cp bp sig bars 0 init, hinit]
    rfl
  have h2 : (runBacktest cp bp sig bars init).equity.map (fun pt => pt.date) =
      bars.map (fun b => b.date) := by
    rw [h1, expectedEquity_dates]
  exact ⟨h1, h2, fun hc => h2 ▸ hc⟩

/-- Initial run state: starting cash, no positions, no records, empty
curve and logs. -/
def initialRunState (cash : ℚ) : RunState :=
  ⟨⟨cash, fun _ => 0, fun _ _ => 0, fun _ => none, []⟩, false, [], []⟩

/-- Witness for equity_curve_once_per_bar on a concrete two-bar run. -/
theorem equity_curve_once_per_bar_witness :
    (initialRunState 100000).equity = [] ∧
    (runBacktest cpDefault bpDefault (fun _ => 0) [⟨1, 10, 10⟩, ⟨2, 11, 11⟩]
        (initialRunState 100000)).equity.map (fun pt => pt.date) = [1, 2] ∧
    List.Chain' (· < ·)
      ((runBacktest cpDefault bpDefault (fun _ => 0) [⟨1, 10, 10⟩, ⟨2, 11, 11⟩]
          (initialRunState 100000)).equity.map (fun pt => pt.date)) :=
  ⟨rfl,
    (equity_curve_once_per_bar cpDefault bpDefault (fun _ => 0)
      [⟨1, 10, 10⟩, ⟨2, 11, 11⟩] (initialRunState 100000) rfl).2.1,
    (equity_curve_once_per_bar cpDefault bpDefault (fun _ => 0)
      [⟨1, 10, 10⟩, ⟨2, 11, 11⟩] (initialRunState 100000) rfl).2.2
      (by
        show List.Chain' (· < ·) ([1, 2] : List Nat)
        rw [List.chain'_cons]
        exact ⟨by norm_num, List.chain'_singleton 2⟩)⟩

/-- Insertion of a date into an ascending duplicate-free list, keeping
it ascending and duplicate-free. -/
def sortedInsert (d : Nat) : List Nat → List Nat
  | [] => [d]
  | x :: xs =>
    if d < x then d :: x :: xs
    else if d = x then x :: xs
    else x :: sortedInsert d xs

/-- sorted(set(dates)): the ascending duplicate-free list of the dates
occurring in the input (combine_strategy_results, engine.py lines
633-637). -/
def sortedUnion (l : List Nat) : List Nat := l.foldr sortedInsert []

/-- Value contributed by one sub-run at a date: the value of the first
equity entry with that date, or 0 when no entry is found (the next(...)
with None default of engine.py lines 645-651). -/
def lookupValue (curve : List EquityPoint) (d : Nat) : ℚ :=
  match curve.find? (fun item => item.date == d) with
  | some item => item.value
  | none => 0

/-- Cash contributed by one sub-run at a date, first entry or 0. -/
def lookupCash (curve : List EquityPoint) (d : Nat) : ℚ :=
  match curve.find? (fun item => item.date == d) with
  | some item => item.cash
  | none => 0

/-- Equity-curve merge of combine_strategy_results (engine.py lines
629-657): only when every sub-run has a non-empty equity curve, the
dates are unioned and sorted and each date receives the summed value
and cash over the sub-runs; otherwise the combined curve stays empty. -/
def combineEquityCurves (curves : List (List EquityPoint)) : List EquityPoint :=
  if curves.all (fun c => !c.isEmpty) then
    (sortedUnion (curves.flatMap (fun c => c.map (fun item => item.date)))).map
      (fun d =>
        { date := d,
          value := (curves.map (fun c => lookupValue c d)).sum,
          cash := (curves.map (fun c => lookupCash c d)).sum })
  else []

/-- Membership in sortedInsert: exactly the inserted date and the
previous members. -/
theorem mem_sortedInsert (d : Nat) (l : List Nat) (y : Nat) :
    y ∈ sortedInsert d l ↔ y = d ∨ y ∈ l := by
  induction l with
  | nil => simp [sortedInsert]
  | cons x xs ih =>
    unfold sortedInsert
    split
    · simp
    · split
      · rename_i hlt heq
        subst heq
        simp only [List.mem_cons]
        constructor
        · intro h
          exact Or.inr h
        · rintro (h | h)
          · exact Or.inl h
          · exact h
      · simp only [List.mem_cons, ih]
        constructor
        · rintro (h | h | h)
          · exact Or.inr (Or.inl h)
          · exact Or.inl h
          · exact Or.inr (Or.inr h)
        · rintro (h | h | h)
          · exact Or.inr (Or.inl h)
          · exact Or.inl h
          · exact Or.inr (Or.inr h)

/-- sortedInsert preserves strictly ascending order. -/
theorem chain_sortedInsert (d : Nat) (l : List Nat)
    (h : List.Chain' (· < ·) l) :
    List.Chain' (· < ·) (sortedInsert d l) := by
  induction l with
  | nil => simp [sortedInsert]
  | cons x xs ih =>
    unfold sortedInsert
    split
    · exact List.Chain'.cons (by assumption) h
    · split
      · exact h
      · rename_i hnlt hne
        have hxd : x < d := by omega
        have hxs : List.Chain' (· < ·) xs := h.tail
        have hins := ih hxs
        cases xs with
        | nil =>
          exact List.Chain'.cons hxd (by simp [sortedInsert])
        | cons z zs =>
          unfold sortedInsert
          split
          · exact List.Chain'.cons hxd (List.Chain'.cons (by assumption) hxs)
          · split
            · rename_i hz1 hz2
              subst hz2
              exact h
            · have hxz : x < z := (List.chain'_cons.mp h).1
              have htail : List.Chain' (· < ·) (sortedInsert d (z :: zs)) := hins
              unfold sortedInsert at htail
              rw [if_neg (by assumption), if_neg (by assumption)] at htail
              exact List.Chain'.cons hxz htail

/-- Membership in sortedUnion: exactly the input dates. -/
theorem mem_sortedUnion (l : List Nat) (y : Nat) :
    y ∈ sortedUnion l ↔ y ∈ l := by
  induction l with
  | nil => simp [sortedUnion]
  | cons x xs ih =>
    show y ∈ sortedInsert x (sortedUnion xs) ↔ _
    rw [mem_sortedInsert, ih]
    simp [eq_comm]

/-- sortedUnion is strictly ascending (hence duplicate-free). -/
theorem chain_sortedUnion (l : List Nat) :
    List.Chain' (· < ·) (sortedUnion l) := by
  induction l with
  | nil => exact List.chain'_nil
  | cons x xs ih => exact chain_sortedInsert x (sortedUnion xs) ih

/-- C7 counterexample: with one sub-run holding an equity point at date
1 and another sub-run holding an empty equity curve, the merged curve
of combine_strategy_results is empty, although the union of the dates
of the sub-run curves is the singleton date 1: the merged curve is not
the union of dates whenever some sub-run curve is empty. -/
theorem combine_union_counterexample :
    combineEquityCurves [[⟨1, 5, 5⟩], []] = [] ∧
    sortedUnion (([[⟨1, 5, 5⟩], []] : List (List EquityPoint)).flatMap
      (fun c => c.map (fun item => item.date))) = [1] := by
  constructor
  · rfl
  · rfl

/-- C7 amended: provided every sub-run equity curve is non-empty, the
merged curve of combine_strategy_results carries exactly the union of
the dates of the sub-run curves, strictly ascending and without
duplicates, and the value recorded at each date is the sum over the
sub-runs of the value of their first entry at that date, a sub-run
without an entry contributing 0 (and likewise for cash); whenever some
sub-run curve is empty the merged curve is empty instead. -/
theorem combine_union_amended (curves : List (List EquityPoint))
    (h : ∀ c ∈ curves, c ≠ []) :
    (combineEquityCurves curves).map (fun pt => pt.date) =
      sortedUnion (curves.flatMap (fun c => c.map (fun item => item.date))) ∧
    List.Chain' (· < ·) ((combineEquityCurves curves).map (fun pt => pt.date)) ∧
    (∀ d : Nat, (d ∈ (combineEquityCurves curves).map (fun pt => pt.date)) ↔
      ∃ c ∈ curves, ∃ item ∈ c, item.date = d) ∧
    (∀ pt ∈ combineEquityCurves curves,
      pt.value = (curves.map (fun c => lookupValue c pt.date)).sum ∧
      pt.cash = (curves.map (fun c => lookupCash c pt.date)).sum) := by
  have hall : curves.all (fun c => !c.isEmpty) = true := by
    rw [List.all_eq_true]
    intro c hc
    simp [List.isEmpty_iff, h c hc]
  have hcomb : combineEquityCurves curves =
      (sortedUnion (curves.flatMap (fun c => c.map (fun item => item.date)))).map
        (fun d =>
          { date := d,
            value := (curves.map (fun c => lookupValue c d)).sum,
            cash := (curves.map (fun c => lookupCash c d)).sum }) := by
    unfold combineEquityCurves
    rw [if_pos hall]
  have hmapdate : ∀ (u : List Nat),
      (u.map (fun d =>
        ({ date := d,
           value := (curves.map (fun c => lookupValue c d)).sum,
           cash := (curves.map (fun c => lookupCash c d)).sum } : EquityPoint))).map
        (fun pt => pt.date) = u := by
    intro u
    induction u with
    | nil => rfl
    | cons a t ih => simp only [List.map_cons, ih]
  have hdates : (combineEquityCurves curves).map (fun pt => pt.date) =
      sortedUnion (curves.flatMap (fun c => c.map (fun item => item.date))) := by
    rw [hcomb]
    exact hmapdate _
  refine ⟨hdates, ?_, ?_, ?_⟩
  · rw [hdates]
    exact chain_sortedUnion _
  · intro d
    rw [hdates, mem_sortedUnion]
    simp only [List.mem_flatMap, List.mem_map]
  · intro pt hpt
    rw [hcomb] at hpt
    obtain ⟨d, _, hd⟩ := List.mem_map.mp hpt
    rw [← hd]
    exact ⟨rfl, rfl⟩

/-- Witness for combine_union_amended on two one-point sub-runs with
distinct dates. -/
theorem combine_union_amended_witness :
    (∀ c ∈ ([[⟨1, 5, 3⟩], [⟨2, 7, 4⟩]] : List (List EquityPoint)), c ≠ []) ∧
    (combineEquityCurves [[⟨1, 5, 3⟩], [⟨2, 7, 4⟩]]).map (fun pt => pt.date) =
      sortedUnion (([[⟨1, 5, 3⟩], [⟨2, 7, 4⟩]] : List (List EquityPoint)).flatMap
        (fun c => c.map (fun item => item.date))) :=
  ⟨by decide,
    (combine_union_amended [[⟨1, 5, 3⟩], [⟨2, 7, 4⟩]] (by decide)).1⟩

/-- itertools.product over the candidate value lists, in the iteration
order of the source (rightmost list varies fastest);
optimizer.py line 62. -/
def cartesianProduct : List (List Int) → List (List Int)
  | [] => [[]]
  | xs :: rest => xs.flatMap (fun x => (cartesianProduct rest).map (fun c => x :: c))

/-- All parameter combinations of a grid (param_names paired positionally
with one value from each candidate list). -/
def gridCombinations (grid : List (String × List Int)) : List (List Int) :=
  cartesianProduct (grid.map Prod.snd)

/-- Lookup of a named parameter in the dict built by
zip(param_names, params); optimizer.py line 72. -/
def lookupParam (grid : List (String × List Int)) (combo : List Int)
    (key : String) : Option Int :=
  ((grid.map Prod.fst).zip combo).lookup key

/-- The validity filter of optimizer.py lines 75-78: a combination is
skipped exactly when both fast_period and slow_period are present and
fast_period >= slow_period. -/
def validCombo (grid : List (String × List Int)) (combo : List Int) : Bool :=
  match lookupParam grid combo "fast_period", lookupParam grid combo "slow_period" with
  | some fastPeriod, some slowPeriod =>
    if slowPeriod ≤ fastPeriod then false else true
  | _, _ => true

/-- Best-so-far update of optimizer.py lines 114-125: the tracked best
is replaced only on a strictly greater score (the initial best_score of
negative infinity is modelled by the none state, which any first score
beats). -/
def bestStep (b : Option (List Int × ℚ)) (cs : List Int × ℚ) :
    Option (List Int × ℚ) :=
  match b with
  | none => some cs
  | some bc => if cs.2 > bc.2 then some cs else some bc

/-- Accumulator of the grid-search loop: the recorded per-combination
results and the best combination so far. -/
structure GridState where
  results : List (List Int × ℚ)
  best : Option (List Int × ℚ)

/-- One iteration of the grid-search loop (optimizer.py lines 70-135):
an invalid combination is skipped; a run that raises (eval returns
none) is skipped; a successful run appends its record and updates the
best via strict comparison. -/
def gridStep (grid : List (String × List Int)) (eval : List Int → Option ℚ)
    (st : GridState) (combo : List Int) : GridState :=
  if validCombo grid combo = true then
    match eval combo with
    | none => st
    | some score =>
      ⟨st.results ++ [(combo, score)], bestStep st.best (combo, score)⟩
  else st

/-- The recorded results of a full grid-search sweep. -/
def gridResults (grid : List (String × List Int))
    (eval : List Int → Option ℚ) : List (List Int × ℚ) :=
  ((gridCombinations grid).foldl (gridStep grid eval) ⟨[], none⟩).results

/-- ParameterOptimizer.grid_search (optimizer.py lines 22-153): the
loop runs over every combination, and a missing best at the end raises;
otherwise the best combination and score are returned. -/
def gridSearch (grid : List (String × List Int))
    (eval : List Int → Option ℚ) : Except String (List Int × ℚ) :=
  match ((gridCombinations grid).foldl (gridStep grid eval) ⟨[], none⟩).best with
  | none => Except.error "all parameter combinations failed"
  | some best => Except.ok best

/-- Declarative view of the sweep: the valid combinations, each paired
with its score when its run succeeds. -/
def evalResults (grid : List (String × List Int)) (eval : List Int → Option ℚ)
    (combos : List (List Int)) : List (List Int × ℚ) :=
  (combos.filter (fun c => validCombo grid c)).filterMap
    (fun c => (eval c).map (fun s => (c, s)))

/-- Membership in the Cartesian product: exactly the lists picking one
element from each candidate list, in order. -/
theorem mem_cartesianProduct :
    ∀ (ls : List (List Int)) (c : List Int),
      c ∈ cartesianProduct ls ↔ List.Forall₂ (fun x xs => x ∈ xs) c ls := by
  intro ls
  induction ls with
  | nil =>
    intro c
    simp [cartesianProduct, List.forall₂_nil_right_iff]
  | cons xs rest ih =>
    intro c
    unfold cartesianProduct
    rw [List.mem_flatMap, List.forall₂_cons_right_iff]
    constructor
    · rintro ⟨x, hx, hc⟩
      obtain ⟨c', hc', hcons⟩ := List.mem_map.mp hc
      exact ⟨x, c', hx, (ih c').mp hc', hcons.symm⟩
    · rintro ⟨x, c', hx, hc', hcons⟩
      exact ⟨x, hx, List.mem_map.mpr ⟨c', (ih c').mpr hc', hcons.symm⟩⟩

/-- The grid-search loop, characterised: the recorded results are the
declarative evalResults of the processed combinations, and the tracked
best is the bestStep fold over those results. -/
theorem foldl_gridStep_spec (grid : List (String × List Int))
    (eval : List Int → Option ℚ) :
    ∀ (combos : List (List Int)) (st : GridState),
      (combos.foldl (gridStep grid eval) st).results =
        st.results ++ evalResults grid eval combos ∧
      (combos.foldl (gridStep grid eval) st).best =
        (evalResults grid eval combos).foldl bestStep st.best := by
  intro combos
  induction combos with
  | nil => intro st; simp [evalResults]
  | cons c rest ih =>
    intro st
    rw [List.foldl_cons]
    by_cases hv : validCombo grid c = true
    · cases heval : eval c with
      | none =>
        have hstep : gridStep grid eval st c = st := by
          unfold gridStep
          rw [if_pos hv, heval]
        have hres : evalResults grid eval (c :: rest) = evalResults grid eval rest := by
          unfold evalResults
          rw [List.filter_cons_of_pos hv, List.filterMap_cons, heval]
          rfl
        rw [hstep, hres]
        exact ih st
      | some score =>
        have hstep : gridStep grid eval st c =
            ⟨st.results ++ [(c, score)], bestStep st.best (c, score)⟩ := by
          unfold gridStep
          rw [if_pos hv, heval]
        have hres : evalResults grid eval (c :: rest) =
            (c, score) :: evalResults grid eval rest := by
          unfold evalResults
          rw [List.filter_cons_of_pos hv, List.filterMap_cons, heval]
          rfl
        rw [hstep, hres]
        obtain ⟨ih1, ih2⟩ := ih ⟨st.results ++ [(c, score)], bestStep st.best (c, score)⟩
        constructor
        · rw [ih1]
          simp
        · rw [ih2, List.foldl_cons]
    · have hstep : gridStep grid eval st c = st := by
        unfold gridStep
        rw [if_neg hv]
      have hres : evalResults grid eval (c :: rest) = evalResults grid eval rest := by
        unfold evalResults
        rw [List.filter_cons_of_neg (by simpa using hv)]
      rw [hstep, hres]
      exact ih st

/-- A bestStep fold started from an existing candidate never loses the
candidate slot. -/
theorem foldl_bestStep_isSome :
    ∀ (l : List (List Int × ℚ)) (b : List Int × ℚ),
      ∃ q, l.foldl bestStep (some b) = some q := by
  intro l
  induction l with
  | nil => intro b; exact ⟨b, rfl⟩
  | cons x xs ih =>
    intro b
    rw [List.foldl_cons]
    by_cases hgt : x.2 > b.2
    · have hb : bestStep (some b) x = some x := by
        show (if x.2 > b.2 then some x else some b) = some x
        rw [if_pos hgt]
      rw [hb]
      exact ih x
    · have hb : bestStep (some b) x = some b := by
        show (if x.2 > b.2 then some x else some b) = some b
        rw [if_neg hgt]
      rw [hb]
      exact ih b

/-- A bestStep fold keeps its seed unless some element strictly beats
everything before it: the result is the first maximum of seed and list. -/
theorem foldl_bestStep_spec :
    ∀ (l : List (List Int × ℚ)) (b p : List Int × ℚ),
      l.foldl bestStep (some b) = some p →
      (p = b ∧ ∀ x ∈ l, x.2 ≤ b.2) ∨
      (∃ pre suf, l = pre ++ p :: suf ∧ b.2 < p.2 ∧
        (∀ x ∈ pre, x.2 < p.2) ∧ (∀ x ∈ suf, x.2 ≤ p.2)) := by
  intro l
  induction l with
  | nil =>
    intro b p h
    left
    refine ⟨(Option.some.inj h).symm, ?_⟩
    intro x hx
    cases hx
  | cons x xs ih =>
    intro b p h
    rw [List.foldl_cons] at h
    by_cases hgt : x.2 > b.2
    · have hb : bestStep (some b) x = some x := by
        show (if x.2 > b.2 then some x else some b) = some x
        rw [if_pos hgt]
      rw [hb] at h
      rcases ih x p h with ⟨hp, hall⟩ | ⟨pre, suf, heq, hbp, hpre, hsuf⟩
      · right
        refine ⟨[], xs, ?_, ?_, ?_, ?_⟩
        · rw [hp, List.nil_append]
        · rw [hp]; exact hgt
        · intro y hy; cases hy
        · intro y hy; rw [hp]; exact hall y hy
      · right
        refine ⟨x :: pre, suf, ?_, lt_trans hgt hbp, ?_, hsuf⟩
        · rw [heq, List.cons_append]
        · intro y hy
          rcases List.mem_cons.mp hy with hy | hy
          · rw [hy]; exact hbp
          · exact hpre y hy
    · have hb : bestStep (some b) x = some b := by
        show (if x.2 > b.2 then some x else some b) = some b
        rw [if_neg hgt]
      rw [hb] at h
      rcases ih b p h with ⟨hp, hall⟩ | ⟨pre, suf, heq, hbp, hpre, hsuf⟩
      · left
        refine ⟨hp, ?_⟩
        intro y hy
        rcases List.mem_cons.mp hy with hy | hy
        · rw [hy]; exact not_lt.mp hgt
        · exact hall y hy
      · right
        refine ⟨x :: pre, suf, ?_, hbp, ?_, hsuf⟩
        · rw [heq, List.cons_append]
        · intro y hy
          rcases List.mem_cons.mp hy with hy | hy
          · rw [hy]; exact lt_of_le_of_lt (not_lt.mp hgt) hbp
          · exact hpre y hy

/-- The first-maximum characterisation of a bestStep fold from the empty
seed: the selected pair occurs in the list, every earlier element scores
strictly lower and every later one scores no higher. -/
theorem selectBest_spec (l : List (List Int × ℚ)) (p : List Int × ℚ)
    (h : l.foldl bestStep none = some p) :
    ∃ pre suf, l = pre ++ p :: suf ∧
      (∀ x ∈ pre, x.2 < p.2) ∧ (∀ x ∈ suf, x.2 ≤ p.2) := by
  cases l with
  | nil => cases h
  | cons x xs =>
    have h' : xs.foldl bestStep (some x) = some p := h
    rcases foldl_bestStep_spec xs x p h' with ⟨hp, hall⟩ | ⟨pre, suf, heq, hbp, hpre, hsuf⟩
    · refine ⟨[], xs, ?_, ?_, ?_⟩
      · rw [hp, List.nil_append]
      · intro y hy; cases hy
      · intro y hy; rw [hp]; exact hall y hy
    · refine ⟨x :: pre, suf, ?_, ?_, hsuf⟩
      · rw [heq, List.cons_append]
      · intro y hy
        rcases List.mem_cons.mp hy with hy | hy
        · rw [hy]
          exact hbp
        · exact hpre y hy

/-- A bestStep fold from the empty seed yields none exactly on the empty
list. -/
theorem foldl_bestStep_none (l : List (List Int × ℚ)) :
    l.foldl bestStep none = none ↔ l = [] := by
  cases l with
  | nil => simp
  | cons x xs =>
    constructor
    · intro h
      obtain ⟨q, hq⟩ := foldl_bestStep_isSome xs x
      have : xs.foldl bestStep (some x) = none := h
      rw [hq] at this
      cases this
    · intro h
      cases h

/-- C8: the grid search enumerates exactly the Cartesian product of the
candidate lists (membership characterisation); it runs a backtest for
exactly the combinations passing the fast/slow validity filter, in
enumeration order, recording those whose run succeeds; and the returned
best is the first recorded result attaining the maximal score (strict
greater-than comparison, so ties keep the first found). -/
theorem grid_search_enumeration (grid : List (String × List Int))
    (eval : List Int → Option ℚ) :
    (∀ combo : List Int, combo ∈ gridCombinations grid ↔
      List.Forall₂ (fun x xs => x ∈ xs) combo (grid.map Prod.snd)) ∧
    gridResults grid eval =
      ((gridCombinations grid).filter (fun c => validCombo grid c)).filterMap
        (fun c => (eval c).map (fun s => (c, s))) ∧
    (∀ best : List Int × ℚ, gridSearch grid eval = Except.ok best →
      ∃ pre suf, gridResults grid eval = pre ++ best :: suf ∧
        (∀ x ∈ pre, x.2 < best.2) ∧ (∀ x ∈ suf, x.2 ≤ best.2)) := by
  obtain ⟨hres, hbest⟩ := foldl_gridStep_spec grid eval (gridCombinations grid) ⟨[], none⟩
  have hres' : gridResults grid eval =
      evalResults grid eval (gridCombinations grid) := by
    rw [gridResults, hres]
    rfl
  refine ⟨fun combo => mem_cartesianProduct (grid.map Prod.snd) combo, hres', ?_⟩
  intro best hok
  have hsome : ((gridCombinations grid).foldl (gridStep grid eval) ⟨[], none⟩).best =
      some best := by
    unfold gridSearch at hok
    split at hok
    · cases hok
    · rename_i heq
      rw [heq]
      exact congrArg some (Except.ok.inj hok)
  rw [hbest] at hsome
  obtain ⟨pre, suf, heq, hpre, hsuf⟩ :=
    selectBest_spec (evalResults grid eval (gridCombinations grid)) best hsome
  exact ⟨pre, suf, by rw [hres', heq], hpre, hsuf⟩

/-- Witness for grid_search_enumeration: over the grid fast in [5, 10],
slow in [20, 5], the surviving runs are [5, 20] and [10, 20]; with a
constant score the tie keeps the first combination found. -/
theorem grid_search_enumeration_witness :
    ∃ pre suf,
      gridResults [("fast_period", [5, 10]), ("slow_period", [20, 5])]
          (fun _ => some (1 : ℚ)) =
        pre ++ ([5, 20], (1 : ℚ)) :: suf ∧
      (∀ x ∈ pre, x.2 < (1 : ℚ)) ∧ (∀ x ∈ suf, x.2 ≤ (1 : ℚ)) :=
  (grid_search_enumeration [("fast_period", [5, 10]), ("slow_period", [20, 5])]
    (fun _ => some (1 : ℚ))).2.2 ([5, 20], 1) rfl

/-- A run stub whose every combination would succeed with score 1, used
to exhibit the failure mode of the all-skipped sweep. -/
def evalAlwaysOne : List Int → Option ℚ := fun _ => some 1

/-- C9 counterexample: over the grid fast_period [25], slow_period [20]
the single combination violates the ordering constraint and is skipped,
so grid_search raises its every-combination-failed error even though the
backtest of every enumerated combination would succeed (the run stub
never fails): the search can fail although no combination run failed. -/
theorem grid_search_error_counterexample :
    gridSearch [("fast_period", [25]), ("slow_period", [20])] evalAlwaysOne =
      Except.error "all parameter combinations failed" ∧
    gridCombinations [("fast_period", [25]), ("slow_period", [20])] = [[25, 20]] ∧
    evalAlwaysOne [25, 20] = some 1 :=
  ⟨rfl, rfl, rfl⟩

/-- C9 amended: a failing combination (eval none) is skipped without
aborting the sweep, and grid_search raises its error exactly when no
combination both survives the fast/slow validity filter and runs
successfully; equivalently, whenever at least one surviving combination
succeeds, a best result is returned. -/
theorem grid_search_error_iff (grid : List (String × List Int))
    (eval : List Int → Option ℚ) :
    gridSearch grid eval = Except.error "all parameter combinations failed" ↔
      ∀ combo ∈ gridCombinations grid, validCombo grid combo = true →
        eval combo = none := by
  obtain ⟨_, hbest⟩ := foldl_gridStep_spec grid eval (gridCombinations grid) ⟨[], none⟩
  have herr : gridSearch grid eval = Except.error "all parameter combinations failed" ↔
      (evalResults grid eval (gridCombinations grid)).foldl bestStep none = none := by
    unfold gridSearch
    rw [hbest]
    constructor
    · intro h
      split at h
      · assumption
      · cases h
    · intro h
      rw [h]
  rw [herr, foldl_bestStep_none]
  unfold evalResults
  constructor
  · intro h combo hmem hvalid
    have hmem' : combo ∈ (gridCombinations grid).filter (fun c => validCombo grid c) :=
      List.mem_filter.mpr ⟨hmem, hvalid⟩
    by_contra hne
    cases heval : eval combo with
    | none => exact hne heval
    | some s =>
      have : (combo, s) ∈
          ((gridCombinations grid).filter (fun c => validCombo grid c)).filterMap
            (fun c => (eval c).map (fun v => (c, v))) := by
        apply List.mem_filterMap.mpr
        exact ⟨combo, hmem', by rw [heval]; rfl⟩
      rw [h] at this
      cases this
  · intro h
    cases hnil : ((gridCombinations grid).filter (fun c => validCombo grid c)).filterMap
        (fun c => (eval c).map (fun v => (c, v))) with
    | nil => rfl
    | cons y ys =>
      exfalso
      have hy : y ∈ ((gridCombinations grid).filter (fun c => validCombo grid c)).filterMap
          (fun c => (eval c).map (fun v => (c, v))) := by
        rw [hnil]
        exact List.mem_cons_self y ys
      obtain ⟨c, hc, hmapped⟩ := List.mem_filterMap.mp hy
      obtain ⟨hcmem, hcvalid⟩ := List.mem_filter.mp hc
      rw [h c hcmem hcvalid] at hmapped
      cases hmapped

/-- Witness for grid_search_error_iff: the all-skipped grid from the
counterexample satisfies the right-hand side vacuously, so the error is
derived through the equivalence. -/
theorem grid_search_error_iff_witness :
    gridSearch [("fast_period", [25]), ("slow_period", [20])]
        (fun _ => some (2 : ℚ)) =
      Except.error "all parameter combinations failed" :=
  (grid_search_error_iff [("fast_period", [25]), ("slow_period", [20])]
    (fun _ => some (2 : ℚ))).mpr (by decide)

/-- Configuration surface of BacktestEngine.setup (engine.py lines
311-321). -/
structure EngineConfig where
  initialCash : ℚ
  commission : ℚ
  stampDuty : ℚ
  minCommission : ℚ
  slippage : ℚ
  enableT1 : Bool
  enablePriceLimit : Bool
  priceLimit : ℚ
deriving DecidableEq

/-- The engine configuration grid_search builds for each surviving
combination (optimizer.py lines 82-91): enable_t1 and enable_price_limit
are passed as True unconditionally, price_limit is left at the setup
default of 10 percent, and the entry point accepts no argument that
could change them. -/
def optimizerEngineSetup (initialCash commission stampDuty minCommission
    slippage : ℚ) : EngineConfig :=
  ⟨initialCash, commission, stampDuty, minCommission, slippage, true, true, 1/10⟩

/-- One engine configuration per combination surviving the validity
filter, as grid_search constructs them. -/
def gridSearchEngineConfigs (grid : List (String × List Int))
    (initialCash commission stampDuty minCommission slippage : ℚ) :
    List EngineConfig :=
  ((gridCombinations grid).filter (fun c => validCombo grid c)).map
    (fun _ => optimizerEngineSetup initialCash commission stampDuty
      minCommission slippage)

/-- The engine configurations run_multi_strategy_backtest builds, one
per sub-strategy (engine.py lines 543-566): weight-normalised cash, and
enable_t1=True, enable_price_limit=True passed unconditionally; the
entry point accepts no argument that could change them. -/
def multiStrategyEngineConfigs (weights : List ℚ)
    (initialCash commission stampDuty minCommission slippage : ℚ) :
    List EngineConfig :=
  weights.map (fun w =>
    ⟨initialCash * (w / weights.sum), commission, stampDuty, minCommission,
      slippage, true, true, 1/10⟩)

/-- C10: every engine launched by the grid search of the Parameter
Optimizer and every sub-run engine launched by the multi-strategy
combiner is configured with T+1 enforcement and price-limit enforcement
both enabled, for all values of the arguments the two entry points do
accept. -/
theorem enforcement_always_enabled (grid : List (String × List Int))
    (weights : List ℚ)
    (initialCash commission stampDuty minCommission slippage : ℚ) :
    (∀ cfg ∈ gridSearchEngineConfigs grid initialCash commission stampDuty
        minCommission slippage,
      cfg.enableT1 = true ∧ cfg.enablePriceLimit = true) ∧
    (∀ cfg ∈ multiStrategyEngineConfigs weights initialCash commission
        stampDuty minCommission slippage,
      cfg.enableT1 = true ∧ cfg.enablePriceLimit = true) := by
  constructor
  · intro cfg hcfg
    obtain ⟨c, _, hc⟩ := List.mem_map.mp hcfg
    rw [← hc]
    exact ⟨rfl, rfl⟩
  · intro cfg hcfg
    obtain ⟨w, _, hw⟩ := List.mem_map.mp hcfg
    rw [← hw]
    exact ⟨rfl, rfl⟩

/-- Witness for enforcement_always_enabled on a one-cell grid and a
single weight. -/
theorem enforcement_always_enabled_witness :
    ((optimizerEngineSetup 1 1 1 1 1).enableT1 = true ∧
      (optimizerEngineSetup 1 1 1 1 1).enablePriceLimit = true) ∧
    (((⟨2 * (1 / [(1 : ℚ)].sum), 1, 1, 1, 1, true, true, 1/10⟩ :
        EngineConfig).enableT1 = true) ∧
      ((⟨2 * (1 / [(1 : ℚ)].sum), 1, 1, 1, 1, true, true, 1/10⟩ :
        EngineConfig).enablePriceLimit = true)) :=
  ⟨(enforcement_always_enabled [("fast_period", [5])] [1] 1 1 1 1 1).1
      (optimizerEngineSetup 1 1 1 1 1)
      (List.mem_singleton_self (optimizerEngineSetup 1 1 1 1 1)),
    (enforcement_always_enabled [("fast_period", [5])] [(1 : ℚ)] 2 1 1 1 1).2
      ⟨2 * (1 / [(1 : ℚ)].sum), 1, 1, 1, 1, true, true, 1/10⟩
      (List.mem_singleton_self
        (⟨2 * (1 / [(1 : ℚ)].sum), 1, 1, 1, 1, true, true, 1/10⟩ : EngineConfig))⟩

end StockBacktest
